import Mathlib

/-!
Verification of the `gitcmd` virtual-filesystem core (Lstat / Stat / ReadDir /
lsTree / lsTreeUncached) of this repository.

The Go code is shallowly embedded: Go strings are modelled as `List Char`
(all data relevant to the claims is ASCII, where Go's byte-wise operations
coincide with character-wise ones), the `git` subprocess is an oracle carried
by the `Repository` structure, and the process-wide LRU cache is threaded as
explicit state.  Helper functions (`splitOnChar`, `splitNChar`, `trimSpace`,
`goParseInt`, `cleanPath`, ...) mirror the Go standard-library functions used
by the source (`strings.Split`, `strings.SplitN`, `strings.TrimSpace`,
`strconv.ParseInt`, `path/filepath.Clean` for slash-separated paths).
-/

namespace GitCmd

/-- The NUL byte separating `git ls-tree -z` records. -/
def nulChar : Char := '\x00'

/-- Character list of a string literal (Go strings are modelled as `List Char`). -/
def chars (s : String) : List Char := s.data

/-- Go `strings.Split(s, sep)` for a one-character separator: splits around every
occurrence of `sep`; the empty input yields one empty field. -/
def splitOnChar (sep : Char) : List Char → List (List Char)
  | [] => [[]]
  | c :: cs =>
    match splitOnChar sep cs with
    | [] => if c = sep then [[], []] else [[c]]
    | t :: ts => if c = sep then [] :: t :: ts else (c :: t) :: ts

/-- Split at the first occurrence of `c`: returns the part before and the part
after it (mirrors Go `strings.IndexByte` followed by slicing). -/
def breakAtChar (c : Char) : List Char → Option (List Char × List Char)
  | [] => none
  | x :: xs =>
    if x = c then some ([], xs)
    else (breakAtChar c xs).map (fun p => (x :: p.1, p.2))

/-- Go `strings.SplitN(s, sep, n)` for a one-character separator and `n > 0`:
at most `n` fields, the last field holding the unsplit remainder. -/
def splitNChar (sep : Char) : Nat → List Char → List (List Char)
  | 0, _ => []
  | 1, s => [s]
  | n + 2, s =>
    match breakAtChar sep s with
    | none => [s]
    | some (pre, post) => pre :: splitNChar sep (n + 1) post

/-- Go `strings.LastIndexByte(s, c) + 1`: one past the last occurrence of `c`,
or `0` when `c` does not occur (the `-1` sentinel plus one). -/
def lastIndexPlusOne (c : Char) : List Char → Nat
  | [] => 0
  | x :: xs =>
    match lastIndexPlusOne c xs with
    | 0 => if x = c then 1 else 0
    | n + 1 => n + 2

/-- Go `strings.TrimPrefix(s, pre)`: drops `pre` when it is a leading part of `s`. -/
def trimPref (pre s : List Char) : List Char :=
  if pre.isPrefixOf s then s.drop pre.length else s

/-- Go `unicode.IsSpace`, the whitespace class used by `strings.TrimSpace` and
`bytes.TrimSpace`. -/
def isGoSpace (c : Char) : Bool :=
  c = ' ' || c = '\t' || c = '\n' || c = '\x0b' || c = '\x0c' || c = '\r' ||
  c = '\x85' || c = '\xa0' || c = '\u1680' ||
  ('\u2000' ≤ c && c ≤ '\u200a') ||
  c = '\u2028' || c = '\u2029' || c = '\u202f' || c = '\u205f' || c = '\u3000'

/-- Go `strings.TrimSpace` / `bytes.TrimSpace`: removes leading and trailing
whitespace. -/
def trimSpace (s : List Char) : List Char :=
  ((s.dropWhile isGoSpace).reverse.dropWhile isGoSpace).reverse

/-- Value of a digit character in the given base (as in Go `strconv`). -/
def digitVal (base : Nat) (c : Char) : Option Nat :=
  let d : Option Nat :=
    if '0' ≤ c ∧ c ≤ '9' then some (c.toNat - '0'.toNat)
    else if 'a' ≤ c ∧ c ≤ 'z' then some (c.toNat - 'a'.toNat + 10)
    else if 'A' ≤ c ∧ c ≤ 'Z' then some (c.toNat - 'A'.toNat + 10)
    else none
  match d with
  | some v => if v < base then some v else none
  | none => none

/-- Accumulate the value of a digit string; `none` on any non-digit. -/
def parseDigitsAux (base : Nat) (acc : Nat) : List Char → Option Nat
  | [] => some acc
  | c :: cs =>
    match digitVal base c with
    | none => none
    | some d => parseDigitsAux base (acc * base + d) cs

/-- Go `strconv.ParseInt(s, base, bitSize)` for an explicit base (8 or 10 in
this code, so no base prefixes or underscores apply): optional sign, at least
one digit, and the value must fit in a signed `bitSize`-bit integer; `none`
models a non-nil error (the source never uses the value in that case). -/
def goParseInt (base bitSize : Nat) (s : List Char) : Option Int :=
  match s with
  | [] => none
  | c :: rest =>
    let (neg, digits) :=
      if c = '-' then (true, rest)
      else if c = '+' then (false, rest)
      else (false, s)
    match digits with
    | [] => none
    | _ :: _ =>
      match parseDigitsAux base 0 digits with
      | none => none
      | some n =>
        let v : Int := if neg then -(n : Int) else (n : Int)
        if -((2 : Int) ^ (bitSize - 1)) ≤ v ∧ v ≤ (2 : Int) ^ (bitSize - 1) - 1
        then some v else none

/-- Lexicographic (byte-wise on ASCII) comparison of names, non-strict. -/
def strLE : List Char → List Char → Bool
  | [], _ => true
  | _ :: _, [] => false
  | a :: as, b :: bs => if a < b then true else if b < a then false else strLE as bs

/-- Lexicographic (byte-wise on ASCII) comparison of names, strict. -/
def strLT : List Char → List Char → Bool
  | [], [] => false
  | [], _ :: _ => true
  | _ :: _, [] => false
  | a :: as, b :: bs => if a < b then true else if b < a then false else strLT as bs

theorem strLE_total (a b : List Char) : strLE a b = true ∨ strLE b a = true := by
  induction a generalizing b with
  | nil => left; rfl
  | cons x xs ih =>
    cases b with
    | nil => right; rfl
    | cons y ys =>
      rcases lt_trichotomy x y with h | h | h
      · left; simp [strLE, h]
      · subst h
        rcases ih ys with h' | h' <;> [left; right] <;> simp [strLE, h', lt_irrefl]
      · right; simp [strLE, h]

theorem strLE_trans {a b c : List Char} (hab : strLE a b = true)
    (hbc : strLE b c = true) : strLE a c = true := by
  induction a generalizing b c with
  | nil => rfl
  | cons x xs ih =>
    cases b with
    | nil => simp [strLE] at hab
    | cons y ys =>
      cases c with
      | nil => simp [strLE] at hbc
      | cons z zs =>
        simp only [strLE] at hab hbc ⊢
        rcases lt_trichotomy x y with hxy | hxy | hxy
        · rcases lt_trichotomy y z with hyz | hyz | hyz
          · simp [lt_trans hxy hyz]
          · subst hyz; simp [hxy]
          · rw [if_neg (not_lt_of_gt hyz), if_pos hyz] at hbc
            exact absurd hbc Bool.false_ne_true
        · subst hxy
          rw [if_neg (lt_irrefl x), if_neg (lt_irrefl x)] at hab
          rcases lt_trichotomy x z with hxz | hxz | hxz
          · simp [hxz]
          · subst hxz
            rw [if_neg (lt_irrefl x), if_neg (lt_irrefl x)] at hbc ⊢
            exact ih hab hbc
          · rw [if_neg (not_lt_of_gt hxz), if_pos hxz] at hbc
            exact absurd hbc Bool.false_ne_true
        · rw [if_neg (not_lt_of_gt hxy), if_pos hxy] at hab
          exact absurd hab Bool.false_ne_true

theorem strLT_of_strLE_of_ne {a b : List Char} (hle : strLE a b = true)
    (hne : a ≠ b) : strLT a b = true := by
  induction a generalizing b with
  | nil =>
    cases b with
    | nil => exact absurd rfl hne
    | cons y ys => rfl
  | cons x xs ih =>
    cases b with
    | nil => simp [strLE] at hle
    | cons y ys =>
      simp only [strLE] at hle
      simp only [strLT]
      rcases lt_trichotomy x y with h | h | h
      · simp [h]
      · subst h
        rw [if_neg (lt_irrefl x), if_neg (lt_irrefl x)] at hle ⊢
        exact ih hle (fun hEq => hne (by rw [hEq]))
      · rw [if_neg (not_lt_of_gt h), if_pos h] at hle
        exact absurd hle Bool.false_ne_true

/-- Go `path/filepath.Clean` (slash-separated): stack-based processing of the
path components after splitting on `/` — empty and `.` components vanish, `..`
pops a previous component (and vanishes at the root of a rooted path). -/
def cleanSeg (rooted : Bool) : List (List Char) → List (List Char) → List (List Char)
  | acc, [] => acc.reverse
  | acc, seg :: rest =>
    if seg = [] ∨ seg = ['.'] then cleanSeg rooted acc rest
    else if seg = ['.', '.'] then
      match acc with
      | [] => if rooted then cleanSeg rooted [] rest else cleanSeg rooted [seg] rest
      | top :: accRest =>
        if top = ['.', '.'] then cleanSeg rooted (seg :: acc) rest
        else cleanSeg rooted accRest rest
    else cleanSeg rooted (seg :: acc) rest

/-- Join path components with `/`. -/
def joinSlash : List (List Char) → List Char
  | [] => []
  | [s] => s
  | s :: rest => s ++ '/' :: joinSlash rest

/-- Go `path/filepath.Clean` for slash-separated (Unix) paths: shortest
lexically-equivalent path; the empty path cleans to `.`. -/
def cleanPath (p : List Char) : List Char :=
  if p = [] then ['.']
  else
    let rooted := p.head? = some '/'
    let comps := cleanSeg rooted [] (splitOnChar '/' p)
    if rooted then '/' :: joinSlash comps
    else if comps = [] then ['.']
    else joinSlash comps

/-- Modelled from the spec: `util.Rel` is the facade's path normalization that
makes an externally supplied path relative (strips a leading separator). Its
definition is not part of the sampled sources. -/
def rel (p : List Char) : List Char := trimPref ['/'] p

/-- Errors of the core, mirroring the distinct error returns of the source:
`unsafeArg` is the Argument Safety Guard's `UnsafeArgumentError`; `notFound`
is `os.PathError{Op: op, Path: path, Err: os.ErrNotExist}`; `execFailed` wraps
a non-zero subprocess exit with its combined output; `malformedOutput`,
`malformedOid` and `malformedSize` are the three `invalid git ls-tree ...`
formatting errors; `numError` is the raw `strconv.ParseInt` error returned for
an unparsable mode field. -/
inductive GitError where
  | unsafeArg (arg : List Char)
  | notFound (op path : List Char)
  | execFailed (args : List (List Char)) (out : List Char)
  | malformedOutput (line : List Char)
  | malformedOid (oid : List Char)
  | malformedSize (size : List Char)
  | numError (s : List Char)
deriving DecidableEq

deriving instance DecidableEq for Except

/-- `vcs.SubmoduleInfo`: advisory metadata attached to submodule entries. -/
structure SubmoduleInfo where
  url : List Char
  commitID : List Char
deriving DecidableEq

/-- `util.FileInfo` as returned to callers: `mode` is the `os.FileMode`
(a `uint32` bit set, kept as a `Nat < 2^32`), `size` the `int64` byte count,
`sys` the optional submodule info (`Sys_`). -/
structure FileInfo where
  name : List Char
  mode : Nat
  size : Int
  sys : Option SubmoduleInfo
deriving DecidableEq

/-- `os.ModeDir` (bit 31 of `os.FileMode`). -/
def modeDirN : Nat := 2 ^ 31

/-- `os.ModeSymlink` (bit 27 of `os.FileMode`). -/
def modeSymlinkN : Nat := 2 ^ 27

/-- Modelled from the spec: `vcs.ModeSubmodule`, the mode bits marking a
submodule entry (the "commit" classification); its definition is not part of
the sampled sources. It is the directory and symlink bits combined, which is
how the surrounding code distinguishes submodules. -/
def modeSubmoduleI : Int := ((2 ^ 31 + 2 ^ 27 : Nat) : Int)

/-- The `gitModeSymlink` constant of the source: git's symlink bit `020000`
in the raw octal mode. -/
def gitModeSymlink : Int := 0o20000

/-- Conversion `os.FileMode(mode)` from `int64` to the `uint32`-valued
`os.FileMode` (two's-complement truncation). -/
def toUInt32 (i : Int) : Nat := (i % ((2 : Int) ^ 32)).toNat

/-- Result of `cmd.CombinedOutput`: the captured output and whether the
subprocess exited with an error. -/
structure ExecResult where
  out : List Char
  err : Bool

/-- The repository together with its subprocess oracles. `git args` models
`r.command("git", args...).CombinedOutput(ctx)`; `gitOutput args` models
`r.command("git", args...).Output(ctx)` (`none` = non-nil error), used for the
best-effort submodule URL lookup; `readFileBytes commit path` is modelled from
the spec: it reads the referenced object's raw content (used to dereference a
symlink); `lsTreeDuration` models the wall-clock milliseconds measured around
one uncached listing (`time.Since(start)`), an environment input. -/
structure Repository where
  repoURI : List Char
  git : List (List Char) → ExecResult
  gitOutput : List (List Char) → Option (List Char)
  readFileBytes : List Char → List Char → Except GitError (List Char)
  lsTreeDuration : List Char → List Char → Bool → Nat

/-- Modelled from the spec: the Argument Safety Guard (`checkSpecArgSafety`,
not part of the sampled sources) fails with an `UnsafeArgumentError` if the
string could be interpreted as a command option, i.e. begins with a dash. -/
def checkSpecArgSafety (arg : List Char) : Except GitError Unit :=
  if arg.head? = some '-' then Except.error (GitError.unsafeArg arg) else Except.ok ()

/-- Modelled from the spec: `ensureAbsCommit` has no definition in the sampled
sources and the spec specifies the Tree Lister's commit input as already
validated, so it is modelled as a no-op. -/
def ensureAbsCommit (_commit : List Char) : Unit := ()

/-- Modelled from the spec: `vcs.IsAbsoluteRevision` (not part of the sampled
sources) holds exactly for a syntactically valid full-length object id — 40
lowercase hexadecimal characters. -/
def isAbsoluteRevision (s : List Char) : Bool :=
  s.length = 40 && s.all (fun c => ('0' ≤ c && c ≤ '9') || ('a' ≤ c && c ≤ 'f'))

/-- The argument list built for `git ls-tree` (on Unix `filepath.ToSlash` is
the identity). -/
def lsTreeArgs (commit path : List Char) (recurse : Bool) : List (List Char) :=
  [chars "ls-tree", chars "--long", chars "--full-name", chars "-z", commit] ++
    (if recurse then [chars "-r", chars "-t"] else []) ++
    (if path ≠ [] then [chars "--", path] else [])

/-- Go `bytes.Contains(hay, needle)`: substring containment. -/
def containsSub (needle : List Char) : List Char → Bool
  | [] => needle.isEmpty
  | c :: cs => needle.isPrefixOf (c :: cs) || containsSub needle cs

/-- The marker git prints when the path exists on disk but not in the commit. -/
def existsOnDiskMsg : List Char := chars "exists on disk, but not in"

/-- `strings.TrimPrefix(path, "./")` as applied by the listing loop. -/
def trimPathOf (path : List Char) : List Char := trimPref (chars "./") path

/-- `strings.LastIndexByte(trimPath, '/') + 1` as applied by the listing loop. -/
def prefixLenOf (path : List Char) : Nat := lastIndexPlusOne '/' (trimPathOf path)

/-- The path part of one `ls-tree` record: everything after the first tab. -/
def recordPath (line : List Char) : List Char :=
  match breakAtChar '\t' line with
  | none => line
  | some (_, rest) => rest

/-- The name an entry receives from one record: the record's path, replaced by
`trimPath` when shorter than it (the submodule-boundary fallback), with the
first `prefixLen` characters removed. -/
def entryNameOf (trimPath : List Char) (prefixLen : Nat) (line : List Char) : List Char :=
  let n := recordPath line
  (if n.length < trimPath.length then trimPath else n).drop prefixLen

/-- The size computation of the listing loop: the dash sentinel (after
trimming) means size 0 (directory or submodule); otherwise the field must
parse as a non-negative `int64` (`strconv.ParseInt(sizeStr, 10, 64)` with the
source's `err != nil || size < 0` check); `none` models the error return. -/
def parseSizeField (sizeField : List Char) : Option Int :=
  let sizeStr := trimSpace sizeField
  if sizeStr = chars "-" then some 0
  else match goParseInt 10 64 sizeStr with
    | none => none
    | some n => if n < 0 then none else some n

/-- The loop body of `lsTreeUncached` for one NUL-separated record: locate the
tab, split the metadata into at most four space-separated fields, apply the
submodule-boundary name fallback, validate the object id and the size field,
parse the octal mode (`strconv.ParseInt(info[0], 8, 32)`), classify by the
type tag, and for submodules query the configured URL best-effort. -/
def parseRecord (r : Repository) (trimPath : List Char) (prefixLen : Nat)
    (line : List Char) : Except GitError FileInfo :=
  match breakAtChar '\t' line with
  | none => Except.error (GitError.malformedOutput line)
  | some (meta, rest) =>
    let name := if rest.length < trimPath.length then trimPath else rest
    match splitNChar ' ' 4 meta with
    | [modeStr, typ, oid, sizeField] =>
      if isAbsoluteRevision oid = false then Except.error (GitError.malformedOid oid)
      else
        match parseSizeField sizeField with
        | none => Except.error (GitError.malformedSize (trimSpace sizeField))
        | some size =>
          match goParseInt 8 32 modeStr with
          | none => Except.error (GitError.numError modeStr)
          | some mode =>
            if typ = chars "blob" then
              let mode2 : Int :=
                if Int.land mode gitModeSymlink ≠ 0 then ((modeSymlinkN : Nat) : Int)
                else Int.lor mode 0o644
              Except.ok ⟨name.drop prefixLen, toUInt32 mode2, size, none⟩
            else if typ = chars "commit" then
              let url : List Char :=
                match r.gitOutput [chars "config", chars "--get",
                    chars "submodule." ++ name ++ chars ".url"] with
                | some outUrl => trimSpace outUrl
                | none => []
              Except.ok ⟨name.drop prefixLen, toUInt32 (Int.lor mode modeSubmoduleI),
                size, some ⟨url, oid⟩⟩
            else if typ = chars "tree" then
              Except.ok ⟨name.drop prefixLen, toUInt32 (Int.lor mode ((modeDirN : Nat) : Int)),
                size, none⟩
            else
              Except.ok ⟨name.drop prefixLen, toUInt32 mode, size, none⟩
    | _ => Except.error (GitError.malformedOutput line)

/-- The sequential record loop: first failing record aborts with its error
(as the `return nil, err` inside the source loop does). -/
def mapExcept (f : List Char → Except GitError FileInfo) :
    List (List Char) → Except GitError (List FileInfo)
  | [] => Except.ok []
  | a :: as =>
    match f a with
    | Except.error e => Except.error e
    | Except.ok b =>
      match mapExcept f as with
      | Except.error e => Except.error e
      | Except.ok bs => Except.ok (b :: bs)

/-- The non-strict by-name order used for sorting listings. -/
def fileInfoLE (a b : FileInfo) : Prop := strLE a.name b.name = true

instance : DecidableRel fileInfoLE := fun a b =>
  inferInstanceAs (Decidable (strLE a.name b.name = true))

instance : IsTotal FileInfo fileInfoLE :=
  ⟨fun a b => strLE_total a.name b.name⟩

instance : IsTrans FileInfo fileInfoLE :=
  ⟨fun _ _ _ hab hbc => strLE_trans hab hbc⟩

/-- Modelled from the spec: `util.SortFileInfosByName` (not part of the sampled
sources) sorts the entries by name, case-sensitively and byte-wise. -/
def sortFileInfosByName (l : List FileInfo) : List FileInfo :=
  List.insertionSort fileInfoLE l

/-- The NUL-separated records of the subprocess output for one request, with
the final element of the split discarded (the source loop skips index
`len(lines)-1`). -/
def recordsOf (r : Repository) (commit path : List Char) (recurse : Bool) :
    List (List Char) :=
  (splitOnChar nulChar (r.git (lsTreeArgs commit path recurse)).out).dropLast

/-- `lsTreeUncached`: validate the path, run `git ls-tree`, classify the two
not-found conditions, split the output on NUL and parse every record except
the final split element, then sort by name. -/
def lsTreeUncached (r : Repository) (commit path : List Char) (recurse : Bool) :
    Except GitError (List FileInfo) :=
  let _ := ensureAbsCommit commit
  match checkSpecArgSafety path with
  | Except.error e => Except.error e
  | Except.ok () =>
    let args := lsTreeArgs commit path recurse
    let res := r.git args
    if res.err then
      if containsSub existsOnDiskMsg res.out then
        Except.error (GitError.notFound (chars "ls-tree") path)
      else Except.error (GitError.execFailed args res.out)
    else if res.out = [] then
      Except.error (GitError.notFound (chars "git ls-tree") path)
    else
      match mapExcept (parseRecord r (trimPathOf path) (prefixLenOf path))
          ((splitOnChar nulChar res.out).dropLast) with
      | Except.error e => Except.error e
      | Except.ok fis => Except.ok (sortFileInfosByName fis)

/-- The process-wide root-listing cache, most-recently-used first (the state
of `lru.New(5)` threaded explicitly). -/
abbrev Cache : Type := List (List Char × List FileInfo)

/-- `lsTreeRootCache` capacity. -/
def lruMaxEntries : Nat := 5

/-- `lru.Get`: the stored value for the key, if any, and the cache with the
found element moved to the front (recency update). -/
def cacheGet (sigma : Cache) (k : List Char) : Option (List FileInfo) × Cache :=
  match sigma.find? (fun e => decide (e.1 = k)) with
  | none => (none, sigma)
  | some e => (some e.2, e :: sigma.filter (fun x => decide (¬ x.1 = k)))

/-- `lru.Add`: store the pair at the front, dropping any previous binding of
the key and evicting beyond the capacity. -/
def cacheAdd (sigma : Cache) (k : List Char) (v : List FileInfo) : Cache :=
  ((k, v) :: sigma.filter (fun x => decide (¬ x.1 = k))).take lruMaxEntries

/-- The composite cache key `string(r.repoURI) + ":" + string(commit) + ":" + path`. -/
def cacheKey (r : Repository) (commit path : List Char) : List Char :=
  r.repoURI ++ ':' :: commit ++ ':' :: path

/-- `lsTree`: requests with a non-empty path or without recursion are served
uncached; the root-recursive shape is looked up in the cache, and on a miss
the uncached result is admitted only when the listing was slow (> 500 ms) and
large (> 5000 entries). -/
def lsTree (r : Repository) (sigma : Cache) (commit path : List Char)
    (recurse : Bool) : Except GitError (List FileInfo) × Cache :=
  if path ≠ [] ∨ recurse = false then (lsTreeUncached r commit path recurse, sigma)
  else
    let key := cacheKey r commit path
    match cacheGet sigma key with
    | (some v, sigma1) => (Except.ok v, sigma1)
    | (none, sigma1) =>
      match lsTreeUncached r commit path recurse with
      | Except.error e => (Except.error e, sigma1)
      | Except.ok entries =>
        if 500 < r.lsTreeDuration commit path recurse ∧ 5000 < entries.length then
          (Except.ok entries, cacheAdd sigma1 key entries)
        else (Except.ok entries, sigma1)

/-- The synthetic root entry `&util.FileInfo{Mode_: os.ModeDir}`. -/
def rootFileInfo : FileInfo := ⟨[], modeDirN, 0, none⟩

/-- `Lstat`: validate the commit, normalize the path, special-case the root,
then take the first entry of the non-recursive listing (not-found when there
is none). -/
def Lstat (r : Repository) (sigma : Cache) (commit path : List Char) :
    Except GitError FileInfo × Cache :=
  match checkSpecArgSafety commit with
  | Except.error e => (Except.error e, sigma)
  | Except.ok () =>
    let path := cleanPath (rel path)
    if path = ['.'] then (Except.ok rootFileInfo, sigma)
    else
      match lsTree r sigma commit path false with
      | (Except.error e, sigma1) => (Except.error e, sigma1)
      | (Except.ok [], sigma1) =>
        (Except.error (GitError.notFound (chars "ls-tree") path), sigma1)
      | (Except.ok (fi :: _), sigma1) => (Except.ok fi, sigma1)

/-- `Stat`: `Lstat`, then one symlink dereference — read the link target from
the object content and `Lstat` it, renaming the result to the originally
requested entry's name. -/
def Stat (r : Repository) (sigma : Cache) (commit path : List Char) :
    Except GitError FileInfo × Cache :=
  match checkSpecArgSafety commit with
  | Except.error e => (Except.error e, sigma)
  | Except.ok () =>
    let path := rel path
    match Lstat r sigma commit path with
    | (Except.error e, sigma1) => (Except.error e, sigma1)
    | (Except.ok fi, sigma1) =>
      if fi.mode &&& modeSymlinkN ≠ 0 then
        match r.readFileBytes commit path with
        | Except.error e => (Except.error e, sigma1)
        | Except.ok b =>
          match Lstat r sigma1 commit b with
          | (Except.error e, sigma2) => (Except.error e, sigma2)
          | (Except.ok fi2, sigma2) => (Except.ok { fi2 with name := fi.name }, sigma2)
      else (Except.ok fi, sigma1)

/-- The path normalization of `ReadDir`: a non-empty path is cleaned and given
a trailing slash so the listing is of the directory's contents. -/
def readDirPath (path : List Char) : List Char :=
  if path ≠ [] then cleanPath (rel path) ++ ['/'] else path

/-- `ReadDir`: validate the commit, normalize the path, delegate to `lsTree`. -/
def ReadDir (r : Repository) (sigma : Cache) (commit path : List Char)
    (recurse : Bool) : Except GitError (List FileInfo) × Cache :=
  match checkSpecArgSafety commit with
  | Except.error e => (Except.error e, sigma)
  | Except.ok () => lsTree r sigma commit (readDirPath path) recurse

/-- A cache state is consistent for repository `r` when every stored pair
whose key is the root-recursive key of some commit holds exactly the entries
an uncached root-recursive listing of that commit returns. -/
def CacheConsistent (r : Repository) (sigma : Cache) : Prop :=
  ∀ e ∈ sigma, ∀ c, e.1 = cacheKey r c [] → lsTreeUncached r c [] true = Except.ok e.2

theorem cacheKey_inj {r : Repository} {c1 c2 : List Char}
    (h : cacheKey r c1 [] = cacheKey r c2 []) : c1 = c2 := by
  unfold cacheKey at h
  rw [List.append_assoc, List.append_assoc] at h
  have h2 := List.append_cancel_right (List.append_cancel_left h)
  exact (List.cons.inj h2).2

theorem mem_cacheGet_snd {sigma : Cache} {k : List Char}
    {e : List Char × List FileInfo} (h : e ∈ (cacheGet sigma k).2) : e ∈ sigma := by
  unfold cacheGet at h
  cases hf : sigma.find? (fun e => decide (e.1 = k)) with
  | none => rw [hf] at h; exact h
  | some f =>
    rw [hf] at h
    rcases List.mem_cons.mp h with rfl | h2
    · exact List.mem_of_find?_eq_some hf
    · exact (List.mem_filter.mp h2).1

theorem cacheGet_fst_some {sigma : Cache} {k : List Char} {v : List FileInfo}
    (h : (cacheGet sigma k).1 = some v) :
    ∃ e ∈ sigma, e.1 = k ∧ e.2 = v := by
  unfold cacheGet at h
  cases hf : sigma.find? (fun e => decide (e.1 = k)) with
  | none => rw [hf] at h; exact absurd h (by simp)
  | some f =>
    rw [hf] at h
    have hp := List.find?_some hf
    simp only [decide_eq_true_eq] at hp
    refine ⟨f, List.mem_of_find?_eq_some hf, hp, ?_⟩
    simpa using h

theorem mem_cacheAdd {sigma : Cache} {k : List Char} {v : List FileInfo}
    {e : List Char × List FileInfo} (h : e ∈ cacheAdd sigma k v) :
    e = (k, v) ∨ e ∈ sigma := by
  unfold cacheAdd at h
  have h2 := List.mem_of_mem_take h
  rcases List.mem_cons.mp h2 with rfl | h3
  · exact Or.inl rfl
  · exact Or.inr (List.mem_filter.mp h3).1

theorem lsTree_bypass {r : Repository} {sigma : Cache} {c p : List Char}
    {rec : Bool} (h : p ≠ [] ∨ rec = false) :
    lsTree r sigma c p rec = (lsTreeUncached r c p rec, sigma) := by
  unfold lsTree; rw [if_pos h]

theorem lsTree_root {r : Repository} {sigma : Cache} {c : List Char}
    (h : CacheConsistent r sigma) :
    (lsTree r sigma c [] true).1 = lsTreeUncached r c [] true ∧
      CacheConsistent r (lsTree r sigma c [] true).2 := by
  have hcond : ¬(([] : List Char) ≠ [] ∨ true = false) := by simp
  rcases hp : cacheGet sigma (cacheKey r c []) with ⟨o, s1⟩
  have hs1 : ∀ e ∈ s1, e ∈ sigma := by
    intro e he
    apply mem_cacheGet_snd (k := cacheKey r c [])
    rw [hp]; exact he
  cases o with
  | some v =>
    obtain ⟨e, hmem, hek, hev⟩ := cacheGet_fst_some (v := v) (k := cacheKey r c [])
      (by rw [hp])
    have huncached : lsTreeUncached r c [] true = Except.ok v := by
      rw [← hev]; exact h e hmem c hek
    have hred : lsTree r sigma c [] true = (Except.ok v, s1) := by
      simp only [lsTree]
      rw [if_neg hcond, hp]
    rw [hred]
    exact ⟨huncached.symm, fun e2 he2 c2 hk2 => h e2 (hs1 e2 he2) c2 hk2⟩
  | none =>
    have hred : lsTree r sigma c [] true =
        (match lsTreeUncached r c [] true with
         | Except.error e => (Except.error e, s1)
         | Except.ok entries =>
           if 500 < r.lsTreeDuration c [] true ∧ 5000 < entries.length then
             (Except.ok entries, cacheAdd s1 (cacheKey r c []) entries)
           else (Except.ok entries, s1)) := by
      simp only [lsTree]
      rw [if_neg hcond, hp]
    cases hu : lsTreeUncached r c [] true with
    | error e =>
      have h1 : (lsTree r sigma c [] true).1 = lsTreeUncached r c [] true := by
        simp only [hred, hu]
      have h2 : (lsTree r sigma c [] true).2 = s1 := by
        simp only [hred, hu]
      refine ⟨h1.trans hu, ?_⟩
      rw [h2]
      exact fun e2 he2 c2 hk2 => h e2 (hs1 e2 he2) c2 hk2
    | ok entries =>
      by_cases hadm : 500 < r.lsTreeDuration c [] true ∧ 5000 < entries.length
      · have h1 : (lsTree r sigma c [] true).1 = lsTreeUncached r c [] true := by
          simp only [hred, hu, if_pos hadm]
        have h2 : (lsTree r sigma c [] true).2 =
            cacheAdd s1 (cacheKey r c []) entries := by
          simp only [hred, hu, if_pos hadm]
        refine ⟨h1.trans hu, ?_⟩
        rw [h2]
        intro e2 he2 c2 hk2
        rcases mem_cacheAdd he2 with rfl | hmem
        · have hc : c = c2 := cacheKey_inj hk2
          rw [← hc]; exact hu
        · exact h e2 (hs1 e2 hmem) c2 hk2
      · have h1 : (lsTree r sigma c [] true).1 = lsTreeUncached r c [] true := by
          simp only [hred, hu, if_neg hadm]
        have h2 : (lsTree r sigma c [] true).2 = s1 := by
          simp only [hred, hu, if_neg hadm]
        refine ⟨h1.trans hu, ?_⟩
        rw [h2]
        exact fun e2 he2 c2 hk2 => h e2 (hs1 e2 he2) c2 hk2

theorem lsTree_transparent {r : Repository} {sigma : Cache} {c p : List Char}
    {rec : Bool} (h : CacheConsistent r sigma) :
    (lsTree r sigma c p rec).1 = lsTreeUncached r c p rec ∧
      CacheConsistent r (lsTree r sigma c p rec).2 := by
  by_cases hb : p ≠ [] ∨ rec = false
  · rw [lsTree_bypass hb]; exact ⟨rfl, h⟩
  · push_neg at hb
    obtain ⟨hp, hrec⟩ := hb
    have hrec2 : rec = true := by
      cases rec
      · exact absurd rfl hrec
      · rfl
    subst hp; subst hrec2
    exact lsTree_root h

/-- Classification of an error as a not-found outcome (`os.ErrNotExist`). -/
def isNotFoundB {α : Type} : Except GitError α → Bool
  | Except.error (GitError.notFound _ _) => true
  | _ => false

/-- Classification of an error as a malformed-output condition: one of the
record-grammar failures of the parsing loop (missing tab, wrong field count,
invalid object id, invalid size, unparsable mode). -/
def isMalformedB : GitError → Bool
  | GitError.malformedOutput _ => true
  | GitError.malformedOid _ => true
  | GitError.malformedSize _ => true
  | GitError.numError _ => true
  | _ => false

/-- The claim's bad-size condition: the (trimmed) size field is neither the
dash sentinel nor a parsable non-negative integer. -/
def badSizeB (sizeField : List Char) : Bool :=
  let sizeStr := trimSpace sizeField
  if sizeStr = chars "-" then false
  else match goParseInt 10 64 sizeStr with
    | none => true
    | some n => decide (n < 0)

/-- The claim's malformed-record condition: the record lacks a tab, does not
have exactly four space-separated metadata fields before the tab, has an
object id that is not a valid full-length hexadecimal revision, or has a bad
size field. -/
def badRecordB (line : List Char) : Bool :=
  match breakAtChar '\t' line with
  | none => true
  | some (meta, _) =>
    match splitNChar ' ' 4 meta with
    | [_, _, oid, sizeField] => !(isAbsoluteRevision oid) || badSizeB sizeField
    | _ => true

theorem badSizeB_iff {sizeField : List Char} :
    badSizeB sizeField = true ↔ parseSizeField sizeField = none := by
  unfold badSizeB parseSizeField
  by_cases hd : trimSpace sizeField = chars "-"
  · simp [hd]
  · simp only [if_neg hd]
    cases goParseInt 10 64 (trimSpace sizeField) with
    | none => simp
    | some n =>
      by_cases hn : n < 0
      · simp [hn]
      · simp [hn]

theorem splitOnChar_ne_nil (sep : Char) (s : List Char) : splitOnChar sep s ≠ [] := by
  cases s with
  | nil => simp [splitOnChar]
  | cons c cs =>
    rw [splitOnChar]
    cases splitOnChar sep cs with
    | nil => by_cases h : c = sep <;> simp [h]
    | cons t ts => by_cases h : c = sep <;> simp [h]

theorem splitOnChar_concat_sep (sep : Char) (s : List Char) :
    splitOnChar sep (s ++ [sep]) = splitOnChar sep s ++ [[]] := by
  induction s with
  | nil => simp [splitOnChar]
  | cons c cs ih =>
    rw [List.cons_append, splitOnChar, ih, splitOnChar]
    cases h : splitOnChar sep cs with
    | nil => exact absurd h (splitOnChar_ne_nil sep cs)
    | cons t ts => by_cases hc : c = sep <;> simp [hc]

theorem breakAtChar_eq_some {c : Char} {s pre post : List Char}
    (h : breakAtChar c s = some (pre, post)) :
    s = pre ++ c :: post ∧ c ∉ pre := by
  induction s generalizing pre post with
  | nil => simp [breakAtChar] at h
  | cons x xs ih =>
    rw [breakAtChar] at h
    by_cases hx : x = c
    · rw [if_pos hx] at h
      simp only [Option.some.injEq, Prod.mk.injEq] at h
      obtain ⟨h1, h2⟩ := h
      subst h1; subst h2; subst hx
      exact ⟨rfl, List.not_mem_nil x⟩
    · rw [if_neg hx] at h
      cases hb : breakAtChar c xs with
      | none => rw [hb] at h; simp at h
      | some p =>
        rcases p with ⟨p1, p2⟩
        rw [hb] at h
        simp only [Option.map_some', Option.some.injEq, Prod.mk.injEq] at h
        obtain ⟨h1, h2⟩ := h
        obtain ⟨hs, hnm⟩ := ih hb
        subst h2
        constructor
        · rw [← h1, hs]; rfl
        · rw [← h1]
          intro hm
          rcases List.mem_cons.mp hm with heq | hm2
          · exact hx heq.symm
          · exact hnm hm2

theorem mapExcept_ok_forall2 {f : List Char → Except GitError FileInfo}
    {l : List (List Char)} {l2 : List FileInfo}
    (h : mapExcept f l = Except.ok l2) :
    List.Forall₂ (fun a b => f a = Except.ok b) l l2 := by
  induction l generalizing l2 with
  | nil =>
    unfold mapExcept at h
    simp only [Except.ok.injEq] at h
    subst h
    exact List.Forall₂.nil
  | cons a as ih =>
    unfold mapExcept at h
    cases hf : f a with
    | error e => rw [hf] at h; simp at h
    | ok b =>
      rw [hf] at h
      cases hm : mapExcept f as with
      | error e => rw [hm] at h; simp at h
      | ok bs =>
        rw [hm] at h
        simp only [Except.ok.injEq] at h
        subst h
        exact List.Forall₂.cons hf (ih hm)

theorem mapExcept_ok_length {f : List Char → Except GitError FileInfo}
    {l : List (List Char)} {l2 : List FileInfo}
    (h : mapExcept f l = Except.ok l2) : l2.length = l.length :=
  (mapExcept_ok_forall2 h).length_eq.symm

theorem mapExcept_error_mem {f : List Char → Except GitError FileInfo}
    {l : List (List Char)} {e : GitError}
    (h : mapExcept f l = Except.error e) : ∃ a ∈ l, f a = Except.error e := by
  induction l with
  | nil => unfold mapExcept at h; simp at h
  | cons a as ih =>
    unfold mapExcept at h
    cases hf : f a with
    | error e2 =>
      rw [hf] at h
      simp only [Except.error.injEq] at h
      exact ⟨a, List.mem_cons_self a as, h ▸ hf⟩
    | ok b =>
      rw [hf] at h
      cases hm : mapExcept f as with
      | error e2 =>
        rw [hm] at h
        simp only [Except.error.injEq] at h
        obtain ⟨a2, ha2, hfa2⟩ := ih (hm.trans (by rw [h]))
        exact ⟨a2, List.mem_cons_of_mem a ha2, hfa2⟩
      | ok bs => rw [hm] at h; simp at h

theorem mapExcept_error_of_bad {f : List Char → Except GitError FileInfo}
    {l : List (List Char)} {a : List Char} (ha : a ∈ l)
    (hbad : ∀ b, f a ≠ Except.ok b) :
    ∃ e, mapExcept f l = Except.error e := by
  induction l with
  | nil => cases ha
  | cons x xs ih =>
    unfold mapExcept
    cases hf : f x with
    | error e => exact ⟨e, rfl⟩
    | ok b =>
      rcases List.mem_cons.mp ha with rfl | hm
      · exact absurd hf (hbad b)
      · obtain ⟨e, he⟩ := ih hm
        rw [he]
        exact ⟨e, rfl⟩

theorem parseRecord_error_malformed {r : Repository} {tp : List Char}
    {pl : Nat} {line : List Char} {e : GitError}
    (h : parseRecord r tp pl line = Except.error e) : isMalformedB e = true := by
  unfold parseRecord at h
  repeat' split at h
  all_goals first
    | (simp only [Except.error.injEq] at h; subst h; rfl)
    | simp at h

theorem parseRecord_ok_name {r : Repository} {tp : List Char} {pl : Nat}
    {line : List Char} {fi : FileInfo}
    (h : parseRecord r tp pl line = Except.ok fi) :
    fi.name = entryNameOf tp pl line := by
  unfold parseRecord at h
  repeat' split at h
  all_goals first
    | (simp only [Except.ok.injEq] at h; subst h;
       simp [entryNameOf, recordPath, *])
    | simp at h

/-- The four metadata fields of a record, when the record has a tab and
exactly four space-separated fields before it. -/
def recFields (line : List Char) :
    Option (List Char × List Char × List Char × List Char) :=
  match breakAtChar '\t' line with
  | none => none
  | some (meta, _) =>
    match splitNChar ' ' 4 meta with
    | [f0, f1, f2, f3] => some (f0, f1, f2, f3)
    | _ => none

/-- A repository with a small fixed listing, used to witness the theorems. -/
def wOut : List Char :=
  chars "100644 blob aaaaaaaaaaaaaaaaaaaaaaaaaaaaaaaaaaaaaaaa      6\tb.txt\x00040000 tree aaaaaaaaaaaaaaaaaaaaaaaaaaaaaaaaaaaaaaaa       -\ta\x00"

/-- See `wOut`. -/
def wRepo : Repository :=
  { repoURI := chars "repo"
    git := fun _ => ⟨wOut, false⟩
    gitOutput := fun _ => none
    readFileBytes := fun _ _ => Except.ok (chars "b.txt")
    lsTreeDuration := fun _ _ _ => 0 }

/-- C1: cache transparency — a request with a non-empty path or without
recursion bypasses the cache entirely (same result, untouched cache state);
for every request over a consistent cache the cached `lsTree` returns exactly
what `lsTreeUncached` returns (the same entry sequence or the same error, in
particular on a hit), and the resulting cache state is again consistent. -/
theorem cache_transparency (r : Repository) (sigma : Cache)
    (commit path : List Char) (recurse : Bool) (h : CacheConsistent r sigma) :
    ((path ≠ [] ∨ recurse = false) →
      lsTree r sigma commit path recurse =
        (lsTreeUncached r commit path recurse, sigma)) ∧
    (lsTree r sigma commit path recurse).1 = lsTreeUncached r commit path recurse ∧
    CacheConsistent r (lsTree r sigma commit path recurse).2 :=
  ⟨fun hb => lsTree_bypass hb, (lsTree_transparent h).1, (lsTree_transparent h).2⟩

/-- Witness for C1 at the cacheable request shape over the empty cache. -/
theorem cache_transparency_witness :
    CacheConsistent wRepo [] ∧
    ((((chars "c" : List Char) ≠ [] ∨ true = false) →
      lsTree wRepo [] (chars "c") (chars "c") true =
        (lsTreeUncached wRepo (chars "c") (chars "c") true, [])) ∧
    (lsTree wRepo [] (chars "c") (chars "c") true).1 =
      lsTreeUncached wRepo (chars "c") (chars "c") true ∧
    CacheConsistent wRepo (lsTree wRepo [] (chars "c") (chars "c") true).2) :=
  ⟨fun e he => absurd he (List.not_mem_nil e),
    cache_transparency wRepo [] (chars "c") (chars "c") true
      (fun e he => absurd he (List.not_mem_nil e))⟩

/-- C2: mode translation — for a well-formed record (four fields, parsed
octal mode `m`): a "blob" with the git symlink bit `020000` set is classified
`os.ModeSymlink`; a plain "blob" gets permission bits `m | 0644`; a "commit"
gets the submodule bits OR'd onto `m` and carries submodule info whose commit
id is the record's object id; a "tree" gets the directory bit OR'd onto `m`. -/
theorem mode_translation (r : Repository) (tp : List Char) (pl : Nat)
    (line : List Char) (fi : FileInfo)
    (f0 f1 f2 f3 : List Char) (m : Int)
    (hfields : recFields line = some (f0, f1, f2, f3))
    (hmode : goParseInt 8 32 f0 = some m)
    (hok : parseRecord r tp pl line = Except.ok fi) :
    ((f1 = chars "blob" ∧ Int.land m gitModeSymlink ≠ 0) → fi.mode = modeSymlinkN) ∧
    ((f1 = chars "blob" ∧ Int.land m gitModeSymlink = 0) →
      fi.mode = toUInt32 (Int.lor m 0o644)) ∧
    (f1 = chars "commit" →
      fi.mode = toUInt32 (Int.lor m modeSubmoduleI) ∧
      ∃ u, fi.sys = some ⟨u, f2⟩) ∧
    (f1 = chars "tree" → fi.mode = toUInt32 (Int.lor m ((modeDirN : Nat) : Int))) := by
  unfold recFields at hfields
  cases hb : breakAtChar '\t' line with
  | none => rw [hb] at hfields; simp at hfields
  | some p =>
    rcases p with ⟨meta, rest⟩
    rw [hb] at hfields
    simp only at hfields
    cases hs : splitNChar ' ' 4 meta with
    | nil => rw [hs] at hfields; simp at hfields
    | cons g0 gs0 =>
      rw [hs] at hfields
      match gs0, hfields with
      | [g1, g2, g3], hfields =>
        simp only [Option.some.injEq, Prod.mk.injEq] at hfields
        obtain ⟨e0, e1, e2, e3⟩ := hfields
        rw [e0, e1, e2, e3] at hs
        unfold parseRecord at hok
        rw [hb] at hok
        simp only at hok
        rw [hs] at hok
        simp only at hok
        cases hoid : isAbsoluteRevision f2 with
        | false => rw [hoid] at hok; simp at hok
        | true =>
          rw [hoid] at hok
          simp only [Bool.true_eq_false, if_false] at hok
          cases hsz : parseSizeField f3 with
          | none => rw [hsz] at hok; simp at hok
          | some size =>
            rw [hsz] at hok
            simp only at hok
            rw [hmode] at hok
            simp only at hok
            refine ⟨?_, ?_, ?_, ?_⟩
            · rintro ⟨hf1, hland⟩
              rw [if_pos hf1, if_pos hland] at hok
              simp only [Except.ok.injEq] at hok
              subst hok
              rfl
            · rintro ⟨hf1, hland⟩
              rw [if_pos hf1,
                if_neg (show ¬(Int.land m gitModeSymlink ≠ 0) from fun hc => hc hland)] at hok
              simp only [Except.ok.injEq] at hok
              subst hok
              rfl
            · intro hf1
              rw [if_neg (fun hc => by rw [hf1] at hc; exact absurd hc (by decide)),
                if_pos hf1] at hok
              simp only [Except.ok.injEq] at hok
              subst hok
              exact ⟨rfl, _, rfl⟩
            · intro hf1
              rw [if_neg (fun hc => by rw [hf1] at hc; exact absurd hc (by decide)),
                if_neg (fun hc => by rw [hf1] at hc; exact absurd hc (by decide)),
                if_pos hf1] at hok
              simp only [Except.ok.injEq] at hok
              subst hok
              rfl

/-- The 40-character object id of the witness repository. -/
def wOid : List Char := chars "aaaaaaaaaaaaaaaaaaaaaaaaaaaaaaaaaaaaaaaa"

/-- A submodule ("commit") record used to witness the mode translation. -/
def wCommitLine : List Char :=
  chars "160000 commit aaaaaaaaaaaaaaaaaaaaaaaaaaaaaaaaaaaaaaaa -\tsub"

/-- Witness for C2 at a concrete submodule record. -/
theorem mode_translation_witness :
    recFields wCommitLine = some (chars "160000", chars "commit", wOid, chars "-") ∧
    goParseInt 8 32 (chars "160000") = some 57344 ∧
    parseRecord wRepo [] 0 wCommitLine =
      Except.ok ⟨chars "sub", 2281758720, 0, some ⟨[], wOid⟩⟩ ∧
    (((chars "commit" = chars "blob" ∧ Int.land 57344 gitModeSymlink ≠ 0) →
        (⟨chars "sub", 2281758720, 0, some ⟨[], wOid⟩⟩ : FileInfo).mode = modeSymlinkN) ∧
      ((chars "commit" = chars "blob" ∧ Int.land 57344 gitModeSymlink = 0) →
        (⟨chars "sub", 2281758720, 0, some ⟨[], wOid⟩⟩ : FileInfo).mode =
          toUInt32 (Int.lor 57344 0o644)) ∧
      (chars "commit" = chars "commit" →
        (⟨chars "sub", 2281758720, 0, some ⟨[], wOid⟩⟩ : FileInfo).mode =
          toUInt32 (Int.lor 57344 modeSubmoduleI) ∧
        ∃ u, (⟨chars "sub", 2281758720, 0, some ⟨[], wOid⟩⟩ : FileInfo).sys =
          some ⟨u, wOid⟩) ∧
      (chars "commit" = chars "tree" →
        (⟨chars "sub", 2281758720, 0, some ⟨[], wOid⟩⟩ : FileInfo).mode =
          toUInt32 (Int.lor 57344 ((modeDirN : Nat) : Int)))) :=
  ⟨by decide, by decide, by decide,
    mode_translation wRepo [] 0 wCommitLine
      ⟨chars "sub", 2281758720, 0, some ⟨[], wOid⟩⟩
      (chars "160000") (chars "commit") wOid (chars "-") 57344
      (by decide) (by decide) (by decide)⟩

/-- A repository whose subprocess reports success with empty output. -/
def wEmptyRepo : Repository :=
  { repoURI := chars "repo"
    git := fun _ => ⟨[], false⟩
    gitOutput := fun _ => none
    readFileBytes := fun _ _ => Except.ok []
    lsTreeDuration := fun _ _ _ => 0 }

theorem Lstat_snd (r : Repository) (sigma : Cache) (c p : List Char) :
    (Lstat r sigma c p).2 = sigma := by
  unfold Lstat
  cases hs : checkSpecArgSafety c with
  | error e => simp only [hs]
  | ok u =>
    cases u
    simp only [hs]
    by_cases hdot : cleanPath (rel p) = ['.']
    · rw [if_pos hdot]
    · rw [if_neg hdot, lsTree_bypass (Or.inr rfl)]
      cases lsTreeUncached r c (cleanPath (rel p)) false with
      | error e => rfl
      | ok l => cases l <;> rfl

theorem Lstat_ok_safety {r : Repository} {sigma : Cache} {c p : List Char}
    {fi : FileInfo} (h : (Lstat r sigma c p).1 = Except.ok fi) :
    checkSpecArgSafety c = Except.ok () := by
  cases hs : checkSpecArgSafety c with
  | ok u => cases u; rfl
  | error e =>
    unfold Lstat at h
    simp only [hs] at h
    exact absurd h (by simp)

theorem Lstat_eq (r : Repository) (sigma : Cache) (c p : List Char)
    (hsafe : checkSpecArgSafety c = Except.ok ())
    (hdot : cleanPath (rel p) ≠ ['.']) :
    (Lstat r sigma c p).1 =
      match lsTreeUncached r c (cleanPath (rel p)) false with
      | Except.error e => Except.error e
      | Except.ok [] =>
        Except.error (GitError.notFound (chars "ls-tree") (cleanPath (rel p)))
      | Except.ok (fi :: _) => Except.ok fi := by
  unfold Lstat
  simp only [hsafe]
  rw [if_neg hdot, lsTree_bypass (Or.inr rfl)]
  cases lsTreeUncached r c (cleanPath (rel p)) false with
  | error e => rfl
  | ok l => cases l <;> rfl

theorem isNotFound_false_of_malformed {e : GitError}
    (h : isMalformedB e = true) :
    isNotFoundB (α := List FileInfo) (Except.error e) = false := by
  cases e <;> first | rfl | simp [isMalformedB] at h

/-- C4: not-found conditions — the uncached listing fails with a not-found
error exactly when the subprocess errs with the "exists on disk, but not in"
marker in its output, or when the output is entirely empty; and `Lstat` of a
non-root path returns the first entry of the non-recursive listing, failing
with a not-found error exactly when that listing is empty. -/
theorem notfound_conditions (r : Repository) (sigma : Cache) (c p : List Char)
    (recurse : Bool)
    (hsafeP : checkSpecArgSafety p = Except.ok ())
    (hsafeC : checkSpecArgSafety c = Except.ok ()) :
    (isNotFoundB (lsTreeUncached r c p recurse) = true ↔
      ((r.git (lsTreeArgs c p recurse)).err = true ∧
        containsSub existsOnDiskMsg (r.git (lsTreeArgs c p recurse)).out = true) ∨
      ((r.git (lsTreeArgs c p recurse)).err = false ∧
        (r.git (lsTreeArgs c p recurse)).out = [])) ∧
    (∀ p2, cleanPath (rel p2) ≠ ['.'] →
      (Lstat r sigma c p2).1 =
        match lsTreeUncached r c (cleanPath (rel p2)) false with
        | Except.error e => Except.error e
        | Except.ok [] =>
          Except.error (GitError.notFound (chars "ls-tree") (cleanPath (rel p2)))
        | Except.ok (fi :: _) => Except.ok fi) := by
  constructor
  · unfold lsTreeUncached
    simp only [hsafeP]
    rcases hres : r.git (lsTreeArgs c p recurse) with ⟨out, err⟩
    cases err with
    | true =>
      by_cases hc : containsSub existsOnDiskMsg out = true
      · simp [hc, isNotFoundB]
      · simp [hc, isNotFoundB]
    | false =>
      by_cases hout : out = []
      · simp [hout, isNotFoundB]
      · simp only [Bool.false_eq_true, if_false, if_neg hout]
        cases hm : mapExcept (parseRecord r (trimPathOf p) (prefixLenOf p))
            ((splitOnChar nulChar out).dropLast) with
        | error e =>
          obtain ⟨a, _, hae⟩ := mapExcept_error_mem hm
          rw [isNotFound_false_of_malformed (parseRecord_error_malformed hae)]
          simp [hout]
        | ok fis => simp [isNotFoundB, hout]
  · intro p2 hdot
    exact Lstat_eq r sigma c p2 hsafeC hdot

/-- Witness for C4: an empty subprocess output yields the not-found error. -/
theorem notfound_conditions_witness :
    checkSpecArgSafety (chars "p") = Except.ok () ∧
    checkSpecArgSafety (chars "c") = Except.ok () ∧
    ((isNotFoundB (lsTreeUncached wEmptyRepo (chars "c") (chars "p") false) = true ↔
      ((wEmptyRepo.git (lsTreeArgs (chars "c") (chars "p") false)).err = true ∧
        containsSub existsOnDiskMsg
          (wEmptyRepo.git (lsTreeArgs (chars "c") (chars "p") false)).out = true) ∨
      ((wEmptyRepo.git (lsTreeArgs (chars "c") (chars "p") false)).err = false ∧
        (wEmptyRepo.git (lsTreeArgs (chars "c") (chars "p") false)).out = [])) ∧
    (∀ p2, cleanPath (rel p2) ≠ ['.'] →
      (Lstat wEmptyRepo [] (chars "c") p2).1 =
        match lsTreeUncached wEmptyRepo (chars "c") (cleanPath (rel p2)) false with
        | Except.error e => Except.error e
        | Except.ok [] =>
          Except.error (GitError.notFound (chars "ls-tree") (cleanPath (rel p2)))
        | Except.ok (fi :: _) => Except.ok fi)) :=
  ⟨by decide, by decide,
    notfound_conditions wEmptyRepo [] (chars "c") (chars "p") false
      (by decide) (by decide)⟩

/-- C6: the argument guard precedes execution — when the guard rejects the
commit id, `Lstat`, `Stat` and `ReadDir` all return the `UnsafeArgumentError`
with the cache untouched, for every repository whatsoever (so the result does
not depend on the subprocess oracles: no invocation can have influenced it). -/
theorem guard_precedes (r : Repository) (sigma : Cache) (c p : List Char)
    (recurse : Bool)
    (h : checkSpecArgSafety c = Except.error (GitError.unsafeArg c)) :
    Lstat r sigma c p = (Except.error (GitError.unsafeArg c), sigma) ∧
    Stat r sigma c p = (Except.error (GitError.unsafeArg c), sigma) ∧
    ReadDir r sigma c p recurse = (Except.error (GitError.unsafeArg c), sigma) := by
  refine ⟨?_, ?_, ?_⟩
  · unfold Lstat; simp only [h]
  · unfold Stat; simp only [h]
  · unfold ReadDir; simp only [h]

/-- Witness for C6: a commit id with a leading dash. -/
theorem guard_precedes_witness :
    checkSpecArgSafety (chars "-x") =
      Except.error (GitError.unsafeArg (chars "-x")) ∧
    (Lstat wRepo [] (chars "-x") (chars "p") =
      (Except.error (GitError.unsafeArg (chars "-x")), []) ∧
    Stat wRepo [] (chars "-x") (chars "p") =
      (Except.error (GitError.unsafeArg (chars "-x")), []) ∧
    ReadDir wRepo [] (chars "-x") (chars "p") true =
      (Except.error (GitError.unsafeArg (chars "-x")), [])) :=
  ⟨by decide,
    guard_precedes wRepo [] (chars "-x") (chars "p") true (by decide)⟩

theorem Stat_symlink_eq {r : Repository} {sigma : Cache} {c p : List Char}
    {fi : FileInfo} {b : List Char} {fi2 : FileInfo}
    (hl : (Lstat r sigma c (rel p)).1 = Except.ok fi)
    (hsym : fi.mode &&& modeSymlinkN ≠ 0)
    (hread : r.readFileBytes c (rel p) = Except.ok b)
    (hl2 : (Lstat r sigma c b).1 = Except.ok fi2) :
    (Stat r sigma c p).1 = Except.ok ⟨fi.name, fi2.mode, fi2.size, fi2.sys⟩ := by
  unfold Stat
  simp only [Lstat_ok_safety hl]
  rcases hL : Lstat r sigma c (rel p) with ⟨res1, s1⟩
  have hs1 : s1 = sigma := by
    have h2 := Lstat_snd r sigma c (rel p)
    rw [hL] at h2; exact h2
  rw [hL] at hl
  simp only at hl
  subst hl
  dsimp only
  rw [if_pos hsym, hread, hs1]
  dsimp only
  rcases hL2 : Lstat r sigma c b with ⟨res2, s2⟩
  rw [hL2] at hl2
  simp only at hl2
  subst hl2
  rfl

/-- C3: symlink resolution — when `Lstat` classifies the requested path as a
symlink, `Stat` returns an entry whose name is the name of the originally
requested path's entry and whose mode and size are those of re-resolving
`Lstat` on the target path read from the link's object content. -/
theorem stat_symlink_resolution (r : Repository) (sigma : Cache)
    (c p : List Char) (fi : FileInfo) (b : List Char) (fi2 : FileInfo)
    (hl : (Lstat r sigma c (rel p)).1 = Except.ok fi)
    (hsym : fi.mode &&& modeSymlinkN ≠ 0)
    (hread : r.readFileBytes c (rel p) = Except.ok b)
    (hl2 : (Lstat r sigma c b).1 = Except.ok fi2) :
    ∃ res, (Stat r sigma c p).1 = Except.ok res ∧
      res.name = fi.name ∧ res.mode = fi2.mode ∧ res.size = fi2.size :=
  ⟨⟨fi.name, fi2.mode, fi2.size, fi2.sys⟩,
    Stat_symlink_eq hl hsym hread hl2, rfl, rfl, rfl⟩

/-- A repository whose listing is a single symlink entry pointing at itself. -/
def wSymRepo : Repository :=
  { repoURI := chars "repo"
    git := fun _ =>
      ⟨chars "120000 blob aaaaaaaaaaaaaaaaaaaaaaaaaaaaaaaaaaaaaaaa       5\tlink\x00",
        false⟩
    gitOutput := fun _ => none
    readFileBytes := fun _ _ => Except.ok (chars "link")
    lsTreeDuration := fun _ _ _ => 0 }

/-- The symlink entry of `wSymRepo`. -/
def wSymFi : FileInfo := ⟨chars "link", 134217728, 5, none⟩

/-- Witness for C3 at the self-referencing symlink of `wSymRepo`. -/
theorem stat_symlink_resolution_witness :
    (Lstat wSymRepo [] (chars "c") (rel (chars "link"))).1 = Except.ok wSymFi ∧
    wSymFi.mode &&& modeSymlinkN ≠ 0 ∧
    wSymRepo.readFileBytes (chars "c") (rel (chars "link")) =
      Except.ok (chars "link") ∧
    (Lstat wSymRepo [] (chars "c") (chars "link")).1 = Except.ok wSymFi ∧
    (∃ res, (Stat wSymRepo [] (chars "c") (chars "link")).1 = Except.ok res ∧
      res.name = wSymFi.name ∧ res.mode = wSymFi.mode ∧ res.size = wSymFi.size) :=
  ⟨by decide, by decide, by decide, by decide,
    stat_symlink_resolution wSymRepo [] (chars "c") (chars "link")
      wSymFi (chars "link") wSymFi (by decide) (by decide) (by decide) (by decide)⟩

/-- C10: `Stat` dereferences at most one level — when the entry resolved from
the link's content is itself a symlink, `Stat` returns that second entry
(renamed to the originally requested entry's name) with its symlink mode bit
still set, rather than following the chain further. -/
theorem stat_single_deref (r : Repository) (sigma : Cache)
    (c p : List Char) (fi : FileInfo) (b : List Char) (fi2 : FileInfo)
    (hl : (Lstat r sigma c (rel p)).1 = Except.ok fi)
    (hsym : fi.mode &&& modeSymlinkN ≠ 0)
    (hread : r.readFileBytes c (rel p) = Except.ok b)
    (hl2 : (Lstat r sigma c b).1 = Except.ok fi2)
    (hsym2 : fi2.mode &&& modeSymlinkN ≠ 0) :
    (Stat r sigma c p).1 = Except.ok ⟨fi.name, fi2.mode, fi2.size, fi2.sys⟩ ∧
    (⟨fi.name, fi2.mode, fi2.size, fi2.sys⟩ : FileInfo).mode &&& modeSymlinkN ≠ 0 :=
  ⟨Stat_symlink_eq hl hsym hread hl2, hsym2⟩

/-- Witness for C10: the self-referencing symlink (the second resolution is
again a symlink and is returned as-is). -/
theorem stat_single_deref_witness :
    (Lstat wSymRepo [] (chars "c") (rel (chars "link"))).1 = Except.ok wSymFi ∧
    wSymFi.mode &&& modeSymlinkN ≠ 0 ∧
    wSymRepo.readFileBytes (chars "c") (rel (chars "link")) =
      Except.ok (chars "link") ∧
    (Lstat wSymRepo [] (chars "c") (chars "link")).1 = Except.ok wSymFi ∧
    ((Stat wSymRepo [] (chars "c") (chars "link")).1 =
        Except.ok ⟨wSymFi.name, wSymFi.mode, wSymFi.size, wSymFi.sys⟩ ∧
      (⟨wSymFi.name, wSymFi.mode, wSymFi.size, wSymFi.sys⟩ : FileInfo).mode &&&
        modeSymlinkN ≠ 0) :=
  ⟨by decide, by decide, by decide, by decide,
    stat_single_deref wSymRepo [] (chars "c") (chars "link")
      wSymFi (chars "link") wSymFi
      (by decide) (by decide) (by decide) (by decide) (by decide)⟩

theorem parseRecord_not_ok_of_bad {r : Repository} {tp : List Char} {pl : Nat}
    {line : List Char} (hbad : badRecordB line = true)
    {b : FileInfo} (h : parseRecord r tp pl line = Except.ok b) : False := by
  unfold badRecordB at hbad
  unfold parseRecord at h
  repeat' split at h
  all_goals simp_all [badSizeB_iff]

/-- C5: malformed-output rejection — whenever any record of a successful,
non-empty subprocess output lacks a tab, does not have exactly four
space-separated metadata fields, has an invalid object id, or has a size
field that is neither the dash sentinel nor a non-negative integer, the
listing fails with an error of the malformed-output family (so no entries
are returned). -/
theorem malformed_rejection (r : Repository) (c p : List Char) (recurse : Bool)
    (hsafeP : checkSpecArgSafety p = Except.ok ())
    (hexec : (r.git (lsTreeArgs c p recurse)).err = false)
    (hout : (r.git (lsTreeArgs c p recurse)).out ≠ [])
    (hbad : ∃ line ∈ recordsOf r c p recurse, badRecordB line = true) :
    ∃ e, lsTreeUncached r c p recurse = Except.error e ∧ isMalformedB e = true := by
  obtain ⟨line, hmem, hb⟩ := hbad
  unfold recordsOf at hmem
  obtain ⟨e, he⟩ := mapExcept_error_of_bad
    (f := parseRecord r (trimPathOf p) (prefixLenOf p)) hmem
    (fun b hb2 => absurd hb2 (fun hb3 => parseRecord_not_ok_of_bad hb hb3))
  refine ⟨e, ?_, ?_⟩
  · unfold lsTreeUncached
    simp only [hsafeP]
    rcases hres : r.git (lsTreeArgs c p recurse) with ⟨out, err⟩
    rw [hres] at hexec hout
    simp only at hexec hout
    subst hexec
    rw [hres] at he
    simp only at he
    simp only [Bool.false_eq_true, if_false, if_neg hout, he]
  · obtain ⟨a, _, hae⟩ := mapExcept_error_mem he
    exact parseRecord_error_malformed hae

/-- A repository whose subprocess output contains a record with no tab. -/
def wBadRepo : Repository :=
  { repoURI := chars "repo"
    git := fun _ => ⟨chars "notab\x00", false⟩
    gitOutput := fun _ => none
    readFileBytes := fun _ _ => Except.ok []
    lsTreeDuration := fun _ _ _ => 0 }

/-- Witness for C5: a record lacking the tab separator. -/
theorem malformed_rejection_witness :
    checkSpecArgSafety (chars "p") = Except.ok () ∧
    (wBadRepo.git (lsTreeArgs (chars "c") (chars "p") false)).err = false ∧
    (wBadRepo.git (lsTreeArgs (chars "c") (chars "p") false)).out ≠ [] ∧
    (∃ line ∈ recordsOf wBadRepo (chars "c") (chars "p") false,
      badRecordB line = true) ∧
    (∃ e, lsTreeUncached wBadRepo (chars "c") (chars "p") false = Except.error e ∧
      isMalformedB e = true) :=
  ⟨by decide, by decide, by decide, by decide,
    malformed_rejection wBadRepo (chars "c") (chars "p") false
      (by decide) (by decide) (by decide) (by decide)⟩

theorem lsTreeUncached_ok_shape {r : Repository} {c p : List Char} {rec : Bool}
    {fis : List FileInfo}
    (h : lsTreeUncached r c p rec = Except.ok fis) :
    ∃ parsed, mapExcept (parseRecord r (trimPathOf p) (prefixLenOf p))
        (recordsOf r c p rec) = Except.ok parsed ∧
      fis = sortFileInfosByName parsed := by
  unfold lsTreeUncached at h
  cases hs : checkSpecArgSafety p with
  | error e => simp only [hs] at h; exact absurd h (by simp)
  | ok u =>
    cases u
    simp only [hs] at h
    rcases hres : r.git (lsTreeArgs c p rec) with ⟨out, err⟩
    rw [hres] at h
    simp only at h
    cases err with
    | true =>
      repeat' split at h
      all_goals simp_all
    | false =>
      by_cases hout : out = []
      · simp [hout] at h
      · simp only [Bool.false_eq_true, if_false, if_neg hout] at h
        cases hm : mapExcept (parseRecord r (trimPathOf p) (prefixLenOf p))
            ((splitOnChar nulChar out).dropLast) with
        | error e => rw [hm] at h; simp at h
        | ok parsed =>
          rw [hm] at h
          simp only [Except.ok.injEq] at h
          refine ⟨parsed, ?_, h.symm⟩
          unfold recordsOf
          rw [hres]
          exact hm

theorem names_of_forall2 {r : Repository} {tp : List Char} {pl : Nat}
    {l : List (List Char)} {l2 : List FileInfo}
    (h2 : List.Forall₂ (fun a b => parseRecord r tp pl a = Except.ok b) l l2) :
    l2.map FileInfo.name = l.map (entryNameOf tp pl) := by
  induction h2 with
  | nil => rfl
  | cons hab htail ih =>
    simp only [List.map_cons, parseRecord_ok_name hab, ih]

theorem mapExcept_ok_names {r : Repository} {tp : List Char} {pl : Nat}
    {l : List (List Char)} {l2 : List FileInfo}
    (h : mapExcept (parseRecord r tp pl) l = Except.ok l2) :
    l2.map FileInfo.name = l.map (entryNameOf tp pl) :=
  names_of_forall2 (mapExcept_ok_forall2 h)

/-- C7: sortedness and uniqueness — whenever `readDir` succeeds and the
underlying subprocess records carry pairwise distinct derived names (as the
actual VCS tool guarantees: distinct paths under the queried prefix), the
returned sequence is sorted strictly ascending by name, so no two entries
share a name. -/
theorem sorted_unique_names (r : Repository) (sigma : Cache) (c p : List Char)
    (recurse : Bool) (fis : List FileInfo)
    (hcons : CacheConsistent r sigma)
    (hnd : ((recordsOf r c (readDirPath p) recurse).map
        (entryNameOf (trimPathOf (readDirPath p))
          (prefixLenOf (readDirPath p)))).Nodup)
    (hok : (ReadDir r sigma c p recurse).1 = Except.ok fis) :
    List.Pairwise (fun a b => strLT a.name b.name = true) fis := by
  unfold ReadDir at hok
  cases hs : checkSpecArgSafety c with
  | error e =>
    simp only [hs] at hok
    exact absurd hok (by simp)
  | ok u =>
    cases u
    simp only [hs] at hok
    rw [(lsTree_transparent hcons).1] at hok
    obtain ⟨parsed, hm, hfis⟩ := lsTreeUncached_ok_shape hok
    subst hfis
    have hperm : List.Perm (sortFileInfosByName parsed) parsed :=
      List.perm_insertionSort _ _
    have hsorted : List.Sorted fileInfoLE (sortFileInfosByName parsed) :=
      List.sorted_insertionSort _ _
    have hnames : parsed.map FileInfo.name =
        (recordsOf r c (readDirPath p) recurse).map
          (entryNameOf (trimPathOf (readDirPath p)) (prefixLenOf (readDirPath p))) :=
      mapExcept_ok_names hm
    have hnd2 : (parsed.map FileInfo.name).Nodup := by rw [hnames]; exact hnd
    have hnd3 : ((sortFileInfosByName parsed).map FileInfo.name).Nodup :=
      ((hperm.map FileInfo.name).nodup_iff).mpr hnd2
    have hne : List.Pairwise (fun a b : FileInfo => a.name ≠ b.name)
        (sortFileInfosByName parsed) := List.pairwise_map.mp hnd3
    exact (List.Pairwise.imp₂ (fun a b hle hne2 => strLT_of_strLE_of_ne hle hne2)
      hsorted hne)

/-- The sorted listing of `wRepo` at the root. -/
def wFis : List FileInfo :=
  [⟨chars "a", 2147500032, 0, none⟩, ⟨chars "b.txt", 33188, 6, none⟩]

/-- Witness for C7 over the two-entry listing of `wRepo`. -/
theorem sorted_unique_names_witness :
    CacheConsistent wRepo [] ∧
    ((recordsOf wRepo (chars "c") (readDirPath []) true).map
        (entryNameOf (trimPathOf (readDirPath []))
          (prefixLenOf (readDirPath [])))).Nodup ∧
    (ReadDir wRepo [] (chars "c") [] true).1 = Except.ok wFis ∧
    List.Pairwise (fun a b => strLT a.name b.name = true) wFis :=
  ⟨fun e he => absurd he (List.not_mem_nil e), by decide, by decide,
    sorted_unique_names wRepo [] (chars "c") [] true wFis
      (fun e he => absurd he (List.not_mem_nil e)) (by decide) (by decide)⟩

theorem parseRecord_ok_break {r : Repository} {tp : List Char} {pl : Nat}
    {line : List Char} {fi : FileInfo}
    (h : parseRecord r tp pl line = Except.ok fi) :
    ∃ meta rest, breakAtChar '\t' line = some (meta, rest) := by
  cases hb : breakAtChar '\t' line with
  | none =>
    unfold parseRecord at h
    rw [hb] at h
    simp at h
  | some p2 => exact ⟨p2.1, p2.2, rfl⟩

/-- C9: record splitting — when the successful, non-empty subprocess output is
NUL-terminated, the NUL-split fields are exactly the parsed records followed
by one trailing empty element (the only element discarded); on success every
remaining record is parsed into exactly one returned entry (the result is a
permutation of the per-record parses, one per record); and each parsed
record's path is everything after its (first) tab, the part before it holding
no tab. -/
theorem record_splitting (r : Repository) (c p : List Char) (recurse : Bool)
    (_hsafe : checkSpecArgSafety p = Except.ok ())
    (_hres : (r.git (lsTreeArgs c p recurse)).err = false)
    (_hne : (r.git (lsTreeArgs c p recurse)).out ≠ [])
    (hnul : (r.git (lsTreeArgs c p recurse)).out.getLast? = some nulChar) :
    (splitOnChar nulChar (r.git (lsTreeArgs c p recurse)).out =
      recordsOf r c p recurse ++ [[]]) ∧
    (∀ fis, lsTreeUncached r c p recurse = Except.ok fis →
      ∃ parsed, mapExcept (parseRecord r (trimPathOf p) (prefixLenOf p))
          (recordsOf r c p recurse) = Except.ok parsed ∧
        parsed.length = (recordsOf r c p recurse).length ∧
        List.Perm fis parsed) ∧
    (∀ line fi,
      parseRecord r (trimPathOf p) (prefixLenOf p) line = Except.ok fi →
      ∃ pre post, line = pre ++ '\t' :: post ∧ '\t' ∉ pre ∧
        recordPath line = post) := by
  refine ⟨?_, ?_, ?_⟩
  · have hsplit : (r.git (lsTreeArgs c p recurse)).out.dropLast ++ [nulChar] =
        (r.git (lsTreeArgs c p recurse)).out :=
      List.dropLast_append_getLast? nulChar (by simp [hnul])
    have h2 : splitOnChar nulChar (r.git (lsTreeArgs c p recurse)).out =
        splitOnChar nulChar (r.git (lsTreeArgs c p recurse)).out.dropLast ++ [[]] := by
      conv_lhs => rw [← hsplit]
      exact splitOnChar_concat_sep nulChar _
    rw [h2]
    unfold recordsOf
    rw [h2, List.dropLast_concat]
  · intro fis hok
    obtain ⟨parsed, hm, hfis⟩ := lsTreeUncached_ok_shape hok
    refine ⟨parsed, hm, mapExcept_ok_length hm, ?_⟩
    rw [hfis]
    exact List.perm_insertionSort _ _
  · intro line fi hok
    obtain ⟨meta, rest, hb⟩ := parseRecord_ok_break hok
    obtain ⟨hline, hnm⟩ := breakAtChar_eq_some hb
    refine ⟨meta, rest, hline, hnm, ?_⟩
    unfold recordPath
    rw [hb]

/-- Witness for C9 over the NUL-terminated two-record output of `wRepo`. -/
theorem record_splitting_witness :
    checkSpecArgSafety (chars "p") = Except.ok () ∧
    (wRepo.git (lsTreeArgs (chars "c") (chars "p") false)).err = false ∧
    (wRepo.git (lsTreeArgs (chars "c") (chars "p") false)).out ≠ [] ∧
    (wRepo.git (lsTreeArgs (chars "c") (chars "p") false)).out.getLast? =
      some nulChar ∧
    ((splitOnChar nulChar (wRepo.git (lsTreeArgs (chars "c") (chars "p") false)).out =
      recordsOf wRepo (chars "c") (chars "p") false ++ [[]]) ∧
    (∀ fis, lsTreeUncached wRepo (chars "c") (chars "p") false = Except.ok fis →
      ∃ parsed, mapExcept (parseRecord wRepo (trimPathOf (chars "p"))
          (prefixLenOf (chars "p")))
          (recordsOf wRepo (chars "c") (chars "p") false) = Except.ok parsed ∧
        parsed.length = (recordsOf wRepo (chars "c") (chars "p") false).length ∧
        List.Perm fis parsed) ∧
    (∀ line fi,
      parseRecord wRepo (trimPathOf (chars "p")) (prefixLenOf (chars "p")) line =
        Except.ok fi →
      ∃ pre post, line = pre ++ '\t' :: post ∧ '\t' ∉ pre ∧
        recordPath line = post)) :=
  ⟨by decide, by decide, by decide, by decide,
    record_splitting wRepo (chars "c") (chars "p") false
      (by decide) (by decide) (by decide) (by decide)⟩

/-- C8 (as amended): name derivation — with an empty queried prefix (the
recursive root listing) the entry's name is the record's full relative path;
when the record's path is at least as long as the queried prefix, the name is
the record's path with everything through the queried path's last `/`
removed; and in the defensive fallback (record path shorter than the queried
prefix, the submodule-boundary case) the queried path is substituted for the
record's path before that same trim, so the name is the queried path with
everything through its last `/` removed — not the whole queried path, as the
original claim stated. -/
theorem name_derivation (r : Repository) (path line : List Char) (fi : FileInfo)
    (hok : parseRecord r (trimPathOf path) (prefixLenOf path) line =
      Except.ok fi) :
    (trimPathOf path = [] → fi.name = recordPath line) ∧
    ((trimPathOf path).length ≤ (recordPath line).length →
      fi.name = (recordPath line).drop (prefixLenOf path)) ∧
    ((recordPath line).length < (trimPathOf path).length →
      fi.name = (trimPathOf path).drop (prefixLenOf path)) := by
  have hname := parseRecord_ok_name hok
  rw [hname]
  unfold entryNameOf
  dsimp only
  refine ⟨?_, ?_, ?_⟩
  · intro h0
    have hpl : prefixLenOf path = 0 := by
      unfold prefixLenOf
      rw [h0]
      rfl
    rw [h0, hpl]
    simp
  · intro hle
    rw [if_neg (by omega)]
  · intro hlt
    rw [if_pos hlt]

/-- The submodule-boundary record used to refute the original C8 fallback
sentence: querying path `a/b` while the subprocess reports the shorter path
`a`. -/
def wSubLine : List Char :=
  chars "160000 commit aaaaaaaaaaaaaaaaaaaaaaaaaaaaaaaaaaaaaaaa -\ta"

/-- Counterexample to C8 as stated: in the fallback case the entry's name is
`b`, not the queried path `a/b` — the queried path is substituted and then
still sliced at its last `/`. -/
theorem name_derivation_counterexample :
    parseRecord wRepo (trimPathOf (chars "a/b")) (prefixLenOf (chars "a/b"))
        wSubLine =
      Except.ok ⟨chars "b", 2281758720, 0, some ⟨[], wOid⟩⟩ ∧
    (recordPath wSubLine).length < (trimPathOf (chars "a/b")).length ∧
    (chars "b" : List Char) ≠ trimPathOf (chars "a/b") ∧
    (chars "b" : List Char) ≠ chars "a/b" := by decide

/-- Witness for C8 (amended) at the submodule-boundary record. -/
theorem name_derivation_witness :
    parseRecord wRepo (trimPathOf (chars "a/b")) (prefixLenOf (chars "a/b"))
        wSubLine =
      Except.ok ⟨chars "b", 2281758720, 0, some ⟨[], wOid⟩⟩ ∧
    ((trimPathOf (chars "a/b") = [] →
      (⟨chars "b", 2281758720, 0, some ⟨[], wOid⟩⟩ : FileInfo).name =
        recordPath wSubLine) ∧
    ((trimPathOf (chars "a/b")).length ≤ (recordPath wSubLine).length →
      (⟨chars "b", 2281758720, 0, some ⟨[], wOid⟩⟩ : FileInfo).name =
        (recordPath wSubLine).drop (prefixLenOf (chars "a/b"))) ∧
    ((recordPath wSubLine).length < (trimPathOf (chars "a/b")).length →
      (⟨chars "b", 2281758720, 0, some ⟨[], wOid⟩⟩ : FileInfo).name =
        (trimPathOf (chars "a/b")).drop (prefixLenOf (chars "a/b")))) :=
  ⟨by decide,
    name_derivation wRepo (chars "a/b") wSubLine
      ⟨chars "b", 2281758720, 0, some ⟨[], wOid⟩⟩ (by decide)⟩

end GitCmd
